import Mathlib

/-!
# Verification of the RPFM global search/replace engine, dependency-layer
# lookup, schema gating and table codec round-trip.

Shallow embedding of the relevant parts of the repository:

* `rpfm_extensions/src/search/text.rs` — `Searchable for Text::search`,
  `Replaceable for Text::replace`, `TextMatch::replace`.
* `rpfm_ui/src/background_thread.rs` — the `GoToDefinition` / `GoToLoc`
  layered lookups and the `NewPackedFile` DB flow.
* The versioned table codec and schema registry (the codec sources are not
  part of the sampled tree; those definitions are modelled from the spec
  and marked as such in their doc comments).

Strings are modelled at the character level (`Str := List Char`); Rust byte
offsets coincide with character offsets on the ASCII inputs the claims are
about.  Machine integers are modelled as `Nat`/`Int` with explicit wrapping
where the code casts (`i64 as usize`).  Fallible code (Rust panics such as
`String::replace_range` out of bounds) returns `Option`.
-/

namespace RPFM

/-- Character-level model of a Rust `String` / `&str`. -/
abbrev Str := List Char

/-! ## Rust `str::lines` model

`str::lines` splits at `\n` or `\r\n`; the final line ending is optional.
We split on `'\n'` first (keeping a possibly-empty unterminated final
segment), then strip one trailing `'\r'` from every *terminated* segment and
drop the final segment when it is empty. -/

/-- Split on `'\n'`, keeping every segment (including a trailing empty one):
`splitNL "a\n" = ["a", ""]`.  Never returns `[]`. -/
def splitNL : Str → List Str
  | [] => [[]]
  | c :: s =>
    if c = '\n' then [] :: splitNL s
    else
      match splitNL s with
      | [] => [[c]]
      | l :: ls => (c :: l) :: ls

/-- Strip one trailing `'\r'` (the `\r` of a `\r\n` line ending). -/
def stripCR (l : Str) : Str :=
  if l.getLast? = some '\r' then l.dropLast else l

/-- Rebuild the line list from `splitNL` output the way Rust's `lines()`
iterator reports it: terminated segments lose one trailing `'\r'`; the final
unterminated segment is reported as-is, and dropped when empty. -/
def linesFromParts : List Str → List Str
  | [] => []
  | [l] => if l = [] then [] else [l]
  | l :: ls => stripCR l :: linesFromParts ls

/-- Model of Rust `str::lines().collect()`. -/
def rustLines (s : Str) : List Str := linesFromParts (splitNL s)

/-- Model of `lines.join("\n")` (itertools `join` over the line iterator). -/
def joinLines : List Str → Str
  | [] => []
  | [l] => l
  | l :: ls => l ++ '\n' :: joinLines ls

/-! ## `TextMatch` and search (`rpfm_extensions/src/search/text.rs`) -/

/-- `struct TextMatch { column: u64, row: u64, len: i64, text: String }`. -/
structure TextMatch where
  column : Nat
  row : Nat
  len : Int
  text : Str
  deriving DecidableEq, Repr

/-- `struct TextMatches { path: String, matches: Vec<TextMatch> }`. -/
structure TextMatches where
  path : String
  «matches» : List TextMatch
  deriving DecidableEq, Repr

/-- The compiled-regex side of `MatchingMode` is an external crate; it is
modelled as an abstract per-line matcher returning the `(start, end)` pairs
that `regex::Regex::find_iter` would yield on that line. -/
inductive MatchingMode where
  | Regex (finder : Str → List (Nat × Nat))
  | Pattern

/-- `data.get(column..)`: `Some` slice iff `column` is within bounds. -/
def strGetFrom (data : Str) (column : Nat) : Option Str :=
  if column ≤ data.length then some (data.drop column) else none

/-- Rust `str::starts_with` for a literal pattern. -/
def strStartsWith (pattern s : Str) : Bool := s.take pattern.length == pattern

/-- Rust `str::find` for a literal pattern: first index at which the pattern
occurs. -/
def findSub (pattern : Str) : Str → Option Nat
  | [] => if strStartsWith pattern [] then some 0 else none
  | c :: t =>
    if strStartsWith pattern (c :: t) then some 0
    else (findSub pattern t).map (· + 1)

/-- `str::to_lowercase` (character-level model). -/
def lowerStr (s : Str) : Str := s.map Char.toLower

/-- One iteration step of the `while let Some(text) = data.get(column..)`
scan of `Text::search`'s `MatchingMode::Pattern` arm, with explicit fuel
(the Rust loop terminates for every non-empty pattern because `column`
strictly increases; it diverges on the empty pattern).  Returns the columns
at which matches are recorded. -/
def searchLineAux (pattern : Str) (caseSensitive : Bool) (data : Str) :
    Nat → Nat → List Nat
  | _, 0 => []
  | column, fuel + 1 =>
    match strGetFrom data column with
    | none => []
    | some text =>
      let hay := if caseSensitive then text else lowerStr text
      match findSub pattern hay with
      | some position =>
        (column + position) ::
          searchLineAux pattern caseSensitive data
            (column + position + pattern.length) fuel
      | none => []

/-- Columns of the pattern matches reported on one line. -/
def searchLine (pattern : Str) (caseSensitive : Bool) (data : Str) : List Nat :=
  searchLineAux pattern caseSensitive data 0 (data.length + 1)

/-- Shared skeleton of both `Text::search` arms: walk the enumerated lines,
emitting each line's `(column, len)` pairs as `TextMatch`es carrying the row
index and the full line text. -/
def scanLines (f : Str → List (Nat × Int)) : Nat → List Str → List TextMatch
  | _, [] => []
  | row, data :: rest =>
    (f data).map (fun cl => TextMatch.mk cl.1 row cl.2 data)
      ++ scanLines f (row + 1) rest

/-- Per-line `(column, len)` pairs as produced by the given matching mode:
`regex.find_iter` yields `(start, end - start)`, the pattern arm yields the
scan columns with `len = pattern.len() as i64`. -/
def lineMatcher (pattern : Str) (caseSensitive : Bool) :
    MatchingMode → Str → List (Nat × Int)
  | .Regex finder, data => (finder data).map (fun se => (se.1, (se.2 - se.1 : Nat)))
  | .Pattern, data =>
    (searchLine pattern caseSensitive data).map (fun c => (c, (pattern.length : Int)))

/-- The decoded `Text` variant (`rpfm_lib` `Text`); only its `contents`
string matters to the search engine. -/
structure Text where
  contents : Str
  deriving DecidableEq, Repr

/-- `Searchable for Text::search`. -/
def Text.search (self : Text) (filePath : String) (pattern : Str)
    (caseSensitive : Bool) (matchingMode : MatchingMode) : TextMatches :=
  TextMatches.mk filePath
    (scanLines (lineMatcher pattern caseSensitive matchingMode) 0
      (rustLines self.contents))

/-- `self.len as usize` (an `i64` → `usize` cast, two's-complement wrap). -/
def i64AsUsize (n : Int) : Nat := (n % (2 : Int) ^ 64).toNat

/-- `String::replace_range(start..stop, r)`: `none` models the Rust panic on
an out-of-bounds range. -/
def replaceRange (l : Str) (start stop : Nat) (r : Str) : Option Str :=
  if start ≤ stop ∧ stop ≤ l.length then
    some (l.take start ++ r ++ l.drop stop)
  else none

/-- The `data.lines().enumerate().map(...)` body of `TextMatch::replace`:
walk the lines with their row index, applying `replace_range` to the line
whose index equals the match's row and keeping every other line. -/
def rewriteRow (self : TextMatch) (replacePattern : Str) :
    Nat → List Str → Option (List Str)
  | _, [] => some []
  | row, l :: ls => do
    let h ←
      if self.row = row then
        replaceRange l self.column (self.column + i64AsUsize self.len)
          replacePattern
      else some l
    let t ← rewriteRow self replacePattern (row + 1) ls
    pure (h :: t)

/-- `TextMatch::replace`: rewrite only the matched row of the line
decomposition, re-join with `'\n'`, report whether the joined result differs
from the input, and keep the input otherwise. -/
def TextMatch.replace (self : TextMatch) (replacePattern : Str) (data : Str) :
    Option (Bool × Str) := do
  let newLines ← rewriteRow self replacePattern 0 (rustLines data)
  let newData := joinLines newLines
  if newData ≠ data then pure (true, newData) else pure (false, data)

/-- One `edited |= search_match.replace(...)` step of `Text::replace`. -/
def replaceStep (replacePattern : Str) (acc : Bool × Str) (m : TextMatch) :
    Option (Bool × Str) :=
  (m.replace replacePattern acc.2).map fun ed => (acc.1 || ed.1, ed.2)

/-- `Replaceable for Text::replace`: apply every match in reverse order,
OR-ing the per-match edited flags (pattern, case flag and matching mode are
ignored by the source). -/
def Text.replace (self : Text) (replacePattern : Str)
    (searchMatches : TextMatches) : Option (Bool × Text) := do
  let r ← searchMatches.«matches».reverse.foldlM
    (replaceStep replacePattern) (false, self.contents)
  pure (r.1, Text.mk r.2)

/-! ## Versioned table codec

Modelled from the spec: the per-file codec sources (e.g. the `DB` and
`AnimFragment` decoders of `rpfm_lib`) are not part of the sampled tree;
only their callers and the `AnimFragment` round-trip test are.  The
definitions below follow the spec's description of the table-like payload:
"a fixed marker, a version integer, an entry count, then that many
fixed-order rows per the resolved Definition", fields parsed strictly in
Definition field order with the spec's field types (boolean, floats kept as
raw bits, 16/32/64-bit signed integers and optional variants, RGB colour,
length-prefixed 8/16-bit strings and optional variants, nested
sequence-of-subtable), undecoded trailing bytes preserved as an opaque
tail, and decoding failing — distinctly — when the registry has no
Definition for the stamped version. -/

/-- A raw byte. -/
abbrev Byte := Fin 256

/-- Modelled from the spec: the field type tags of a schema `Definition` (spec §3). -/
inductive FieldType where
  | boolean
  | f32
  | f64
  | i16
  | i32
  | i64
  | colour
  | stringU8
  | stringU16
  | optional (base : FieldType)
  | sequence (sub : List FieldType)

/-- Modelled from the spec: a Definition is an ordered list of fields — the binary row layout. -/
abbrev Definition := List FieldType

/-- Modelled from the spec: decoded cell values.  Floats are kept as raw
bytes (their numeric reading is irrelevant to byte-level round-tripping). -/
inductive FieldValue where
  | boolean (b : Bool)
  | f32 (raw : List Byte)
  | f64 (raw : List Byte)
  | i16 (n : Int)
  | i32 (n : Int)
  | i64 (n : Int)
  | colour (raw : List Byte)
  | stringU8 (bytes : List Byte)
  | stringU16 (units : List (Fin 65536))
  | optional (v : Option FieldValue)
  | sequence (rows : List (List FieldValue))

/-- Read one byte. -/
def readByte : List Byte → Option (Byte × List Byte)
  | [] => none
  | b :: rest => some (b, rest)

/-- Read `n` bytes exactly. -/
def readBytes : Nat → List Byte → Option (List Byte × List Byte)
  | 0, bs => some ([], bs)
  | n + 1, bs => do
    let (b, bs) ← readByte bs
    let (taken, bs) ← readBytes n bs
    pure (b :: taken, bs)

/-- Little-endian unsigned value of a byte list. -/
def leValue : List Byte → Nat
  | [] => 0
  | b :: rest => b.val + 256 * leValue rest

/-- Little-endian encoding of `n` in `w` bytes (the value is reduced
modulo `2^(8*w)`, as a machine store does). -/
def leBytes : Nat → Nat → List Byte
  | 0, _ => []
  | w + 1, n => ⟨n % 256, Nat.mod_lt _ (by omega)⟩ :: leBytes w (n / 256)

/-- Read a `w`-byte little-endian unsigned integer. -/
def readUnsigned (w : Nat) (bs : List Byte) : Option (Nat × List Byte) := do
  let (raw, bs) ← readBytes w bs
  pure (leValue raw, bs)

/-- Two's-complement interpretation of a `w`-byte unsigned value. -/
def toSigned (w u : Nat) : Int :=
  if u < 2 ^ (8 * w - 1) then (u : Int) else (u : Int) - 2 ^ (8 * w)

/-- Unsigned (wrapped) representation of a signed value for storing. -/
def ofSigned (w : Nat) (n : Int) : Nat := (n % (2 : Int) ^ (8 * w)).toNat

/-- Read a `w`-byte little-endian two's-complement signed integer. -/
def readSigned (w : Nat) (bs : List Byte) : Option (Int × List Byte) := do
  let (u, bs) ← readUnsigned w bs
  pure (toSigned w u, bs)

/-- Read a 16-bit code unit (for 16-bit-encoded strings). -/
def readU16Unit (bs : List Byte) : Option (Fin 65536 × List Byte) := do
  let (u, bs) ← readUnsigned 2 bs
  if h : u < 65536 then pure (⟨u, h⟩, bs) else none

/-- Read `n` 16-bit code units. -/
def readU16Units : Nat → List Byte → Option (List (Fin 65536) × List Byte)
  | 0, bs => some ([], bs)
  | n + 1, bs => do
    let (u, bs) ← readU16Unit bs
    let (us, bs) ← readU16Units n bs
    pure (u :: us, bs)

mutual

/-- Modelled from the spec: decode one field value per its `FieldType`
(strings are length-prefixed; optionals carry a 0/1 presence byte; a
nested sequence is a 32-bit row count followed by that many sub-rows). -/
def decodeField : FieldType → List Byte → Option (FieldValue × List Byte)
  | .boolean, bs => do
    let (b, bs) ← readByte bs
    if b.val = 0 then pure (.boolean false, bs)
    else if b.val = 1 then pure (.boolean true, bs)
    else none
  | .f32, bs => do
    let (raw, bs) ← readBytes 4 bs
    pure (.f32 raw, bs)
  | .f64, bs => do
    let (raw, bs) ← readBytes 8 bs
    pure (.f64 raw, bs)
  | .i16, bs => do
    let (n, bs) ← readSigned 2 bs
    pure (.i16 n, bs)
  | .i32, bs => do
    let (n, bs) ← readSigned 4 bs
    pure (.i32 n, bs)
  | .i64, bs => do
    let (n, bs) ← readSigned 8 bs
    pure (.i64 n, bs)
  | .colour, bs => do
    let (raw, bs) ← readBytes 3 bs
    pure (.colour raw, bs)
  | .stringU8, bs => do
    let (len, bs) ← readUnsigned 2 bs
    let (sbytes, bs) ← readBytes len bs
    pure (.stringU8 sbytes, bs)
  | .stringU16, bs => do
    let (len, bs) ← readUnsigned 2 bs
    let (units, bs) ← readU16Units len bs
    pure (.stringU16 units, bs)
  | .optional base, bs => do
    let (flag, bs) ← readByte bs
    if flag.val = 0 then pure (.optional none, bs)
    else if flag.val = 1 then do
      let (v, bs) ← decodeField base bs
      pure (.optional (some v), bs)
    else none
  | .sequence sub, bs => do
    let (count, bs) ← readUnsigned 4 bs
    let (rows, bs) ← decodeRows sub count bs
    pure (.sequence rows, bs)
termination_by t _ => (sizeOf t, 0)
decreasing_by all_goals (simp_wf; try apply Prod.Lex.left; omega)

/-- Modelled from the spec: decode one row, its fields strictly in Definition field order. -/
def decodeRow : Definition → List Byte → Option (List FieldValue × List Byte)
  | [], bs => some ([], bs)
  | f :: fs, bs => do
    let (v, bs) ← decodeField f bs
    let (vs, bs) ← decodeRow fs bs
    pure (v :: vs, bs)
termination_by fs _ => (sizeOf fs, 0)
decreasing_by all_goals (simp_wf; try apply Prod.Lex.left; omega)

/-- Modelled from the spec: decode exactly `count` rows. -/
def decodeRows (defn : Definition) :
    Nat → List Byte → Option (List (List FieldValue) × List Byte)
  | 0, bs => some ([], bs)
  | count + 1, bs => do
    let (r, bs) ← decodeRow defn bs
    let (rs, bs) ← decodeRows defn count bs
    pure (r :: rs, bs)
termination_by count _ => (sizeOf defn, count + 1)
decreasing_by all_goals (simp_wf; apply Prod.Lex.right; omega)

end

mutual

/-- Modelled from the spec: encode one decoded field value back to bytes. -/
def encodeField : FieldValue → List Byte
  | .boolean b => [if b then (1 : Byte) else 0]
  | .f32 raw => raw
  | .f64 raw => raw
  | .i16 n => leBytes 2 (ofSigned 2 n)
  | .i32 n => leBytes 4 (ofSigned 4 n)
  | .i64 n => leBytes 8 (ofSigned 8 n)
  | .colour raw => raw
  | .stringU8 sbytes => leBytes 2 sbytes.length ++ sbytes
  | .stringU16 units =>
    leBytes 2 units.length ++ (units.map (fun u => leBytes 2 u.val)).flatten
  | .optional none => [0]
  | .optional (some v) => 1 :: encodeField v
  | .sequence rows => leBytes 4 rows.length ++ encodeRows rows
termination_by v => sizeOf v
decreasing_by all_goals (simp_wf; try omega)

/-- Modelled from the spec: encode one row, its fields in order. -/
def encodeRowVals : List FieldValue → List Byte
  | [] => []
  | v :: vs => encodeField v ++ encodeRowVals vs
termination_by vs => sizeOf vs
decreasing_by all_goals (simp_wf; try omega)

/-- Modelled from the spec: encode a list of rows. -/
def encodeRows : List (List FieldValue) → List Byte
  | [] => []
  | r :: rs => encodeRowVals r ++ encodeRows rs
termination_by rs => sizeOf rs
decreasing_by all_goals (simp_wf; try omega)

end

/-- Modelled from the spec: the error taxonomy relevant to table decoding —
a missing schema Definition for the stamped version is reported distinctly
from a generic format/decode failure (spec §7). -/
inductive DecodeError where
  | formatError
  | missingDefinition (version : Nat)
  deriving DecidableEq, Repr

/-- Modelled from the spec: a decoded table — the stamped version, the
rows, and the undecoded trailing bytes preserved as an opaque tail. -/
structure DecodedTable where
  version : Nat
  rows : List (List FieldValue)
  tail : List Byte

/-- Modelled from the spec: the fixed marker beginning a table-like payload
(the concrete bytes are immaterial; the spec only requires a fixed
marker). -/
def tableMarker : List Byte := [253, 254, 252, 255]

/-- Strip an expected fixed prefix. -/
def expectBytes (marker bs : List Byte) : Option (List Byte) :=
  if bs.take marker.length = marker then some (bs.drop marker.length) else none

/-- Modelled from the spec: decode a table-like payload against a schema
registry snapshot (`defs v` is the Definition registered for version `v`,
if any) — fixed marker, 32-bit version, 32-bit entry count, that many rows
per the resolved Definition; whatever follows is kept as the opaque tail.
No Definition for the stamped version is a distinct schema error, never a
guess. -/
def decodeTable (defs : Nat → Option Definition) (bs : List Byte) :
    Except DecodeError DecodedTable :=
  match expectBytes tableMarker bs with
  | none => .error .formatError
  | some bs =>
    match readUnsigned 4 bs with
    | none => .error .formatError
    | some (version, bs) =>
      match defs version with
      | none => .error (.missingDefinition version)
      | some defn =>
        match readUnsigned 4 bs with
        | none => .error .formatError
        | some (count, bs) =>
          match decodeRows defn count bs with
          | none => .error .formatError
          | some (rows, tail) => .ok ⟨version, rows, tail⟩

/-- Modelled from the spec: re-encode a decoded table — marker, version,
recomputed entry count, rows in order, then the preserved opaque tail. -/
def encodeTable (t : DecodedTable) : List Byte :=
  tableMarker ++ leBytes 4 t.version ++ leBytes 4 t.rows.length
    ++ encodeRows t.rows ++ t.tail

/-! ## Schema registry and the `NewPackedFile` DB flow

The registry lookup is modelled from the spec ("the (table name, version)
pair uniquely selects a Definition", spec §3/§4.3); the control flow around
it is translated from `background_thread.rs` (`Command::NewPackedFile`). -/

/-- One registered Definition: table name, format version, fields. -/
structure SchemaEntry where
  name : String
  version : Nat
  fields : Definition

/-- A schema registry snapshot. -/
structure Schema where
  entries : List SchemaEntry

/-- Modelled from the spec: `Schema::definition_by_name_and_version` — the
`(table name, version)` pair selects the registered Definition, if any. -/
def definitionByNameAndVersion (s : Schema) (table : String) (version : Nat) :
    Option Definition :=
  (s.entries.find? fun e => e.name == table && e.version == version).map
    (·.fields)

/-- The open container, as far as the `NewPackedFile` flow observes it: an
ordered path → decoded-DB association. -/
abbrev Pack := List (String × DecodedTable)

/-- Outcome of the `NewPackedFile` DB command (the `Response` sent back). -/
inductive NewFileResponse where
  | success
  | errorNoDefinition (table : String) (version : Nat)
  | errorNoSchema
  deriving DecidableEq, Repr

/-- `Command::NewPackedFile` with `NewFile::DB(_, table, version)`
(`background_thread.rs`): resolve the Definition for `(table, version)`;
on success build the new empty table and insert it at `path`; when the
lookup fails, or no schema is loaded, send back a distinct error and
`continue` without touching the open container. -/
def newPackedFileDB (schema : Option Schema) (pack : Pack)
    (path table : String) (version : Nat) : NewFileResponse × Pack :=
  match schema with
  | some s =>
    match definitionByNameAndVersion s table version with
    | some _ => (.success, pack ++ [(path, ⟨version, [], []⟩)])
    | none => (.errorNoDefinition table version, pack)
  | none => (.errorNoSchema, pack)

/-! ## Layered dependency lookup (`GoToDefinition` / `GoToLoc`)

Control flow translated from `background_thread.rs`; the row lookup inside
one decoded table (`rows_containing_data`, a `rpfm_lib` helper not in the
sampled tree) is modelled from the spec:
`lookup(table_name, column, value) -> rows`. -/

/-- The four data-source layers (spec §3 / `DataSource`). -/
inductive DataSource where
  | PackFile
  | ParentFiles
  | GameFiles
  | AssKitFiles
  deriving DecidableEq, Repr

/-- A decoded DB/Loc table as the lookup observes it: named columns and
rows of string cells. -/
structure LookupTable where
  columns : List String
  rows : List (List String)

/-- One container entry as the lookup loops observe it: its path and its
decoded table when `packed_file.decoded()` yields a DB/Loc variant. -/
structure LookupFile where
  path : String
  decoded : Option LookupTable

/-- Modelled from the spec: `Table::rows_containing_data` — the index of
the named column together with the (nonempty) list of indices of rows whose
cell in that column equals the value. -/
def rowsContainingData (column value : String) (t : LookupTable) :
    Option (Nat × List Nat) := do
  let columnIndex ← t.columns.indexOf? column
  let rowIndexes :=
    (t.rows.enum.filter fun r => r.2.get? columnIndex == some value).map (·.1)
  if rowIndexes.isEmpty then none else some (columnIndex, rowIndexes)

/-- One `for packed_file in &packed_files { .. break }` pass: the first
file whose decoded table contains the value, with the reported
`(path, column_index, row_index[0])`. -/
def searchLayer (column value : String) :
    List LookupFile → Option (String × Nat × Nat)
  | [] => none
  | f :: rest =>
    match f.decoded with
    | some t =>
      match rowsContainingData column value t with
      | some (columnIndex, rowIndexes) =>
        some (f.path, columnIndex, rowIndexes.headD 0)
      | none => searchLayer column value rest
    | none => searchLayer column value rest

/-- The reply sent back over the channel. -/
inductive GoToResponse where
  | hit (source : DataSource) (path : String) (columnIndex rowIndex : Nat)
  | notFound
  deriving DecidableEq, Repr

/-- `Command::GoToDefinition`: try the open container's tables; if not
found and the parent-layer data is available (`db_data(.., false, true)`),
try it; then the vanilla-game layer (`db_data(.., true, false)`); then the
assembly-kit-only table for the name; else report the not-found error.
A `none` layer models `db_data` returning `Err` (that layer is skipped). -/
def goToDefinition (localFiles : List LookupFile)
    (parentFiles vanillaFiles : Option (List LookupFile))
    (asskitTable : Option LookupTable) (tableFolder column value : String) :
    GoToResponse :=
  match searchLayer column value localFiles with
  | some (p, ci, ri) => .hit .PackFile p ci ri
  | none =>
    match parentFiles.bind (searchLayer column value) with
    | some (p, ci, ri) => .hit .ParentFiles p ci ri
    | none =>
      match vanillaFiles.bind (searchLayer column value) with
      | some (p, ci, ri) => .hit .GameFiles p ci ri
      | none =>
        match asskitTable.bind (rowsContainingData column value) with
        | some (ci, ris) =>
          .hit .AssKitFiles (tableFolder ++ "/ak_data") ci (ris.headD 0)
        | none => .notFound

/-- `Command::GoToLoc`: the same three-layer cascade over Loc tables with
the fixed column `"key"` (there is no assembly-kit layer for Locs). -/
def goToLoc (localFiles : List LookupFile)
    (parentFiles vanillaFiles : Option (List LookupFile)) (locKey : String) :
    GoToResponse :=
  match searchLayer "key" locKey localFiles with
  | some (p, ci, ri) => .hit .PackFile p ci ri
  | none =>
    match parentFiles.bind (searchLayer "key" locKey) with
    | some (p, ci, ri) => .hit .ParentFiles p ci ri
    | none =>
      match vanillaFiles.bind (searchLayer "key" locKey) with
      | some (p, ci, ri) => .hit .GameFiles p ci ri
      | none => .notFound

/-- The spec's resolution rule, stated in its own words: consult the
layers' results in strict priority order; the first layer producing a hit
wins and lower layers are not consulted (spec §4.4). -/
def specPriorityResolve :
    List (DataSource × Option (String × Nat × Nat)) → GoToResponse
  | [] => .notFound
  | (source, some (p, ci, ri)) :: _ => .hit source p ci ri
  | (_, none) :: rest => specPriorityResolve rest

/-! ## Lemmas: the line split / join pair -/

theorem splitNL_ne_nil : ∀ s : Str, splitNL s ≠ []
  | [] => by simp [splitNL]
  | c :: s => by
    simp only [splitNL]
    split
    · simp
    · split <;> simp

theorem splitNL_no_nl : ∀ {l : Str}, '\n' ∉ l → splitNL l = [l]
  | [], _ => rfl
  | c :: l, h => by
    have hc : ¬c = '\n' := fun hh => h (by simp [hh])
    have hl : '\n' ∉ l := fun hh => h (List.mem_cons_of_mem _ hh)
    simp only [splitNL, if_neg hc, splitNL_no_nl hl]

theorem splitNL_append_nl : ∀ {l : Str} (t : Str), '\n' ∉ l →
    splitNL (l ++ '\n' :: t) = l :: splitNL t
  | [], t, _ => by simp [splitNL]
  | c :: l, t, h => by
    have hc : ¬c = '\n' := fun hh => h (by simp [hh])
    have hl : '\n' ∉ l := fun hh => h (List.mem_cons_of_mem _ hh)
    have ih := splitNL_append_nl t hl
    simp only [List.cons_append, splitNL, if_neg hc, List.append_eq, ih]

theorem stripCR_of_no_cr {l : Str} (h : '\r' ∉ l) : stripCR l = l := by
  rw [stripCR]
  split
  · next heq => exact absurd (List.mem_of_mem_getLast? (by simp [heq])) h
  · rfl

theorem stripCR_subset (l : Str) : ∀ c ∈ stripCR l, c ∈ l := by
  intro c hc
  rw [stripCR] at hc
  split at hc
  · exact (List.dropLast_sublist l).subset hc
  · exact hc

theorem linesFromParts_cons_of_ne_nil {l : Str} {ls : List Str} (h : ls ≠ []) :
    linesFromParts (l :: ls) = stripCR l :: linesFromParts ls := by
  cases ls with
  | nil => exact absurd rfl h
  | cons a as => rfl

theorem rustLines_joinLines : ∀ {ls : List Str},
    (∀ l ∈ ls, '\n' ∉ l ∧ '\r' ∉ l) →
    rustLines (joinLines ls) =
      if ls.getLast? = some [] then ls.dropLast else ls
  | [], _ => by simp [rustLines, joinLines, splitNL, linesFromParts]
  | [l], h => by
    have hl := h l (by simp)
    rw [show joinLines [l] = l from rfl]
    rw [rustLines, splitNL_no_nl hl.1]
    by_cases he : l = [] <;> simp [linesFromParts, he]
  | l :: l' :: ls, h => by
    have h1 := h l (by simp)
    have hrest : ∀ x ∈ l' :: ls, '\n' ∉ x ∧ '\r' ∉ x := fun x hx =>
      h x (List.mem_cons_of_mem _ hx)
    have ih := rustLines_joinLines hrest
    simp only [rustLines] at ih ⊢
    rw [show joinLines (l :: l' :: ls) = l ++ '\n' :: joinLines (l' :: ls)
        from rfl]
    rw [splitNL_append_nl _ h1.1]
    rw [linesFromParts_cons_of_ne_nil (splitNL_ne_nil _)]
    rw [stripCR_of_no_cr h1.2, ih]
    rw [List.getLast?_cons_cons]
    by_cases hgl : (l' :: ls).getLast? = some ([] : Str) <;>
      simp [hgl, List.dropLast_cons₂]

theorem mem_splitNL_no_nl : ∀ (s : Str) (l : Str), l ∈ splitNL s → '\n' ∉ l
  | [], l, hl => by
    simp [splitNL] at hl
    simp [hl]
  | c :: s, l, hl => by
    by_cases hc : c = '\n'
    · simp only [splitNL, if_pos hc] at hl
      rcases List.mem_cons.1 hl with h1 | h1
      · simp [h1]
      · exact mem_splitNL_no_nl s l h1
    · simp only [splitNL, if_neg hc] at hl
      rcases hsp : splitNL s with _ | ⟨p, ps⟩
      · exact absurd hsp (splitNL_ne_nil s)
      · rw [hsp] at hl
        simp only at hl
        rcases List.mem_cons.1 hl with h1 | h1
        · subst h1
          intro hmem
          rcases List.mem_cons.1 hmem with h2 | h2
          · exact hc h2.symm
          · exact mem_splitNL_no_nl s p (by simp [hsp]) h2
        · exact mem_splitNL_no_nl s l (by simp [hsp, h1])

theorem mem_splitNL_chars : ∀ (s : Str) (l : Str), l ∈ splitNL s → ∀ c ∈ l,
    c ∈ s
  | [], l, hl => by
    simp [splitNL] at hl
    simp [hl]
  | a :: s, l, hl => by
    intro c hc
    by_cases ha : a = '\n'
    · simp only [splitNL, if_pos ha] at hl
      rcases List.mem_cons.1 hl with h1 | h1
      · simp [h1] at hc
      · exact List.mem_cons_of_mem _ (mem_splitNL_chars s l h1 c hc)
    · simp only [splitNL, if_neg ha] at hl
      rcases hsp : splitNL s with _ | ⟨p, ps⟩
      · exact absurd hsp (splitNL_ne_nil s)
      · rw [hsp] at hl
        simp only at hl
        rcases List.mem_cons.1 hl with h1 | h1
        · subst h1
          rcases List.mem_cons.1 hc with h2 | h2
          · simp [h2]
          · exact List.mem_cons_of_mem _
              (mem_splitNL_chars s p (by simp [hsp]) c h2)
        · exact List.mem_cons_of_mem _
            (mem_splitNL_chars s l (by simp [hsp, h1]) c hc)

theorem mem_linesFromParts : ∀ (ps : List Str) (l : Str),
    l ∈ linesFromParts ps → ∃ p ∈ ps, ∀ c ∈ l, c ∈ p
  | [], l, hl => by simp [linesFromParts] at hl
  | [p], l, hl => by
    simp only [linesFromParts] at hl
    split at hl
    · simp at hl
    · simp at hl
      subst hl
      exact ⟨l, by simp, fun c hc => hc⟩
  | p :: q :: qs, l, hl => by
    rw [linesFromParts_cons_of_ne_nil (by simp)] at hl
    rcases List.mem_cons.1 hl with h1 | h1
    · subst h1
      exact ⟨p, by simp, stripCR_subset p⟩
    · obtain ⟨p', hp', hcp'⟩ := mem_linesFromParts (q :: qs) l h1
      exact ⟨p', List.mem_cons_of_mem _ hp', hcp'⟩

/-- Lines reported by `rustLines` never contain `'\n'`. -/
theorem rustLines_no_nl {s : Str} {l : Str} (hl : l ∈ rustLines s) :
    '\n' ∉ l := by
  obtain ⟨p, hp, hchars⟩ := mem_linesFromParts (splitNL s) l hl
  exact fun hmem => mem_splitNL_no_nl s p hp (hchars _ hmem)

/-- Every character of a reported line occurs in the source string. -/
theorem rustLines_chars_subset {s : Str} {l : Str} (hl : l ∈ rustLines s) :
    ∀ c ∈ l, c ∈ s := by
  obtain ⟨p, hp, hchars⟩ := mem_linesFromParts (splitNL s) l hl
  exact fun c hc => mem_splitNL_chars s p hp c (hchars c hc)

/-! ## Lemmas: `TextMatch::replace` and `Text::replace` -/

theorem list_set_same {α : Type} : ∀ (ls : List α) (i : Nat) (a : α),
    ls[i]? = some a → ls.set i a = ls
  | [], i, a, h => by simp at h
  | b :: ls, 0, a, h => by
    simp at h
    simp [List.set, h]
  | b :: ls, i + 1, a, h => by
    simp at h
    simp [List.set, list_set_same ls i a h]

theorem rewriteRow_of_lt {m : TextMatch} {R : Str} :
    ∀ (ls : List Str) (row : Nat), m.row < row → rewriteRow m R row ls = some ls
  | [], _, _ => rfl
  | l :: ls, row, h => by
    simp only [rewriteRow]
    rw [if_neg (by omega)]
    rw [rewriteRow_of_lt ls (row + 1) (by omega)]
    rfl

theorem rewriteRow_of_ge {m : TextMatch} {R : Str} :
    ∀ (ls : List Str) (row : Nat), row + ls.length ≤ m.row →
      rewriteRow m R row ls = some ls
  | [], _, _ => rfl
  | l :: ls, row, h => by
    simp only [List.length_cons] at h
    simp only [rewriteRow]
    rw [if_neg (by omega)]
    rw [rewriteRow_of_ge ls (row + 1) (by omega)]
    rfl

theorem rewriteRow_at {m : TextMatch} {R : Str} :
    ∀ (ls : List Str) (row i : Nat) (l : Str), row + i = m.row →
      ls[i]? = some l →
      rewriteRow m R row ls =
        (replaceRange l m.column (m.column + i64AsUsize m.len) R).bind
          (fun nl => some (ls.set i nl))
  | [], _, i, l, _, hget => by simp at hget
  | l' :: ls, row, 0, l, hrow, hget => by
    obtain rfl : l' = l := by simpa using hget
    simp only [rewriteRow]
    rw [if_pos (by omega)]
    rw [rewriteRow_of_lt ls (row + 1) (by omega)]
    cases replaceRange l' m.column (m.column + i64AsUsize m.len) R <;>
      simp [List.set]
  | l' :: ls, row, i + 1, l, hrow, hget => by
    simp only [rewriteRow]
    rw [if_neg (by omega)]
    rw [rewriteRow_at ls (row + 1) i l (by omega) (by simpa using hget)]
    cases replaceRange l m.column (m.column + i64AsUsize m.len) R <;>
      simp [List.set]

/-- A step that reports `false` has left the contents untouched. -/
theorem textMatch_replace_false {m : TextMatch} {R data d : Str}
    (h : m.replace R data = some (false, d)) : d = data := by
  simp only [TextMatch.replace] at h
  cases hrw : rewriteRow m R 0 (rustLines data) with
  | none => rw [hrw] at h; simp at h
  | some nl =>
    rw [hrw] at h
    by_cases hj : joinLines nl = data
    · simp [hj] at h
      exact h.symm
    · simp [hj] at h

theorem take_mid_drop {α : Type} (l : List α) (c k : Nat) :
    l.take c ++ (l.drop c).take k ++ l.drop (c + k) = l := by
  rw [List.append_assoc]
  rw [show l.drop (c + k) = (l.drop c).drop k by rw [List.drop_drop, Nat.add_comm]]
  rw [List.take_append_drop, List.take_append_drop]

/-- Replacing a match with the exact text it covers is a per-line no-op, so
the step reports `false` and keeps the contents — provided joining the split
lines reproduces the contents. -/
theorem textMatch_replace_noop {m : TextMatch} {R data : Str}
    (hnorm : joinLines (rustLines data) = data)
    (hm : ∀ l, (rustLines data)[m.row]? = some l →
      m.column + i64AsUsize m.len ≤ l.length ∧
      R = (l.drop m.column).take (i64AsUsize m.len)) :
    m.replace R data = some (false, data) := by
  cases hget : (rustLines data)[m.row]? with
  | none =>
    have hge : (rustLines data).length ≤ m.row := List.getElem?_eq_none_iff.1 hget
    simp only [TextMatch.replace]
    rw [rewriteRow_of_ge _ 0 (by omega)]
    simp [hnorm]
  | some l =>
    obtain ⟨hb, hR⟩ := hm l hget
    have hrr : replaceRange l m.column (m.column + i64AsUsize m.len) R
        = some l := by
      rw [replaceRange, if_pos ⟨Nat.le_add_right _ _, hb⟩]
      rw [hR, take_mid_drop]
    simp only [TextMatch.replace]
    rw [rewriteRow_at _ 0 m.row l (by omega) hget, hrr]
    simp [list_set_same _ _ _ hget, hnorm]

/-- Folding replace steps: a `true` edited flag is sticky, and a final
`false` flag means the contents were never changed. -/
theorem foldl_replaceStep_spec (R : Str) :
    ∀ (ms : List TextMatch) (b : Bool) (c : Str) (e : Bool) (d : Str),
    ms.foldlM (replaceStep R) (b, c) = some (e, d) →
    (b = true → e = true) ∧ (e = false → d = c)
  | [], b, c, e, d, h => by
    rw [List.foldlM_nil] at h
    simp at h
    exact ⟨fun hb => hb ▸ h.1.symm, fun _ => h.2.symm⟩
  | m :: ms, b, c, e, d, h => by
    rw [List.foldlM_cons] at h
    cases hs : replaceStep R (b, c) m with
    | none => rw [hs] at h; simp at h
    | some acc' =>
      rw [hs] at h
      obtain ⟨ih1, ih2⟩ := foldl_replaceStep_spec R ms acc'.1 acc'.2 e d h
      obtain ⟨e1, d1, hrep, hacc⟩ : ∃ e1 d1,
          m.replace R c = some (e1, d1) ∧ acc' = (b || e1, d1) := by
        simp only [replaceStep] at hs
        cases hr : m.replace R c with
        | none => rw [hr] at hs; simp at hs
        | some ed =>
          rw [hr] at hs
          simp at hs
          exact ⟨ed.1, ed.2, rfl, hs.symm⟩
      refine ⟨fun hb => ih1 (by simp [hacc, hb]), fun he => ?_⟩
      have hacc1 : acc'.1 = false := by
        cases hval : acc'.1 with
        | false => rfl
        | true => exact absurd (ih1 hval) (by simp [he])
      have he1 : e1 = false := by
        rw [hacc] at hacc1
        simp at hacc1
        exact hacc1.2
      have hd1 : d1 = c := textMatch_replace_false (he1 ▸ hrep)
      rw [ih2 he, hacc, hd1]

/-- Folding no-op replace steps keeps the accumulator unchanged. -/
theorem foldl_replaceStep_noop (R : Str) {c : Str}
    (hnorm : joinLines (rustLines c) = c) :
    ∀ (ms : List TextMatch) (b : Bool),
    (∀ m ∈ ms, ∀ l, (rustLines c)[m.row]? = some l →
      m.column + i64AsUsize m.len ≤ l.length ∧
      R = (l.drop m.column).take (i64AsUsize m.len)) →
    ms.foldlM (replaceStep R) (b, c) = some (b, c)
  | [], b, _ => rfl
  | m :: ms, b, hms => by
    rw [List.foldlM_cons]
    have h1 : m.replace R c = some (false, c) :=
      textMatch_replace_noop hnorm (hms m (by simp))
    have hstep : replaceStep R (b, c) m = some (b, c) := by
      simp [replaceStep, h1]
    rw [hstep]
    exact foldl_replaceStep_noop R hnorm ms b
      (fun m' hm' => hms m' (List.mem_cons_of_mem _ hm'))

/-! ## Lemmas: `Text::search` ordering and per-line structure -/

theorem searchLineAux_ge (p : Str) (cs : Bool) (data : Str) :
    ∀ (fuel column : Nat), ∀ x ∈ searchLineAux p cs data column fuel,
      column ≤ x
  | 0, column => by simp [searchLineAux]
  | fuel + 1, column => by
    intro x hx
    simp only [searchLineAux] at hx
    cases hg : strGetFrom data column with
    | none => rw [hg] at hx; simp at hx
    | some text =>
      rw [hg] at hx
      simp only at hx
      cases hf : findSub p (if cs then text else lowerStr text) with
      | none => rw [hf] at hx; simp at hx
      | some position =>
        rw [hf] at hx
        simp only at hx
        rcases List.mem_cons.1 hx with h1 | h1
        · omega
        · have := searchLineAux_ge p cs data fuel (column + position + p.length)
            x h1
          omega

theorem searchLineAux_chain (p : Str) (cs : Bool) (data : Str) :
    ∀ (fuel column : Nat),
      List.Chain' (fun a b => a + p.length ≤ b)
        (searchLineAux p cs data column fuel)
  | 0, column => by simp [searchLineAux]
  | fuel + 1, column => by
    simp only [searchLineAux]
    cases hg : strGetFrom data column with
    | none => simp
    | some text =>
      simp only
      cases hf : findSub p (if cs then text else lowerStr text) with
      | none => simp
      | some position =>
        simp only
        refine List.chain'_cons'.2 ⟨fun y hy => ?_, searchLineAux_chain p cs
          data fuel (column + position + p.length)⟩
        have hmem : y ∈ searchLineAux p cs data (column + position + p.length)
            fuel := List.mem_of_mem_head? hy
        have := searchLineAux_ge p cs data fuel (column + position + p.length)
          y hmem
        omega

theorem searchLine_chain (p : Str) (cs : Bool) (data : Str) :
    List.Chain' (fun a b => a + p.length ≤ b) (searchLine p cs data) :=
  searchLineAux_chain p cs data (data.length + 1) 0

theorem scanLines_row_ge (f : Str → List (Nat × Int)) :
    ∀ (ls : List Str) (row : Nat), ∀ m ∈ scanLines f row ls, row ≤ m.row
  | [], row => by simp [scanLines]
  | d :: ls, row => by
    intro m hm
    simp only [scanLines] at hm
    rcases List.mem_append.1 hm with h1 | h1
    · obtain ⟨cl, _, rfl⟩ := List.mem_map.1 h1
      simp
    · have := scanLines_row_ge f ls (row + 1) m h1
      omega

theorem scanLines_row_lt (f : Str → List (Nat × Int)) :
    ∀ (ls : List Str) (row : Nat), ∀ m ∈ scanLines f row ls,
      m.row < row + ls.length
  | [], row => by simp [scanLines]
  | d :: ls, row => by
    intro m hm
    simp only [scanLines] at hm
    rcases List.mem_append.1 hm with h1 | h1
    · obtain ⟨cl, _, rfl⟩ := List.mem_map.1 h1
      simp
    · have := scanLines_row_lt f ls (row + 1) m h1
      simp only [List.length_cons]
      omega

theorem scanLines_filter_at (f : Str → List (Nat × Int)) :
    ∀ (ls : List Str) (row i : Nat) (d : Str), ls[i]? = some d →
      (scanLines f row ls).filter (fun m => m.row == row + i)
        = (f d).map (fun cl => TextMatch.mk cl.1 (row + i) cl.2 d)
  | [], _, i, d, h => by simp at h
  | d' :: ls, row, 0, d, h => by
    obtain rfl : d' = d := by simpa using h
    simp only [scanLines, List.filter_append]
    have h1 : ((f d').map
          (fun cl => TextMatch.mk cl.1 row cl.2 d')).filter
          (fun m => m.row == row + 0)
        = (f d').map (fun cl => TextMatch.mk cl.1 (row + 0) cl.2 d') := by
      rw [List.filter_eq_self.2]
      · simp
      · intro m hm
        obtain ⟨cl, _, rfl⟩ := List.mem_map.1 hm
        simp
    have h2 : (scanLines f (row + 1) ls).filter
        (fun m => m.row == row + 0) = [] := by
      rw [List.filter_eq_nil_iff.2]
      intro m hm
      have := scanLines_row_ge f ls (row + 1) m hm
      simp only [beq_iff_eq]
      omega
    rw [h1, h2, List.append_nil]
  | d' :: ls, row, i + 1, d, h => by
    simp only [scanLines, List.filter_append]
    have h1 : ((f d').map
          (fun cl => TextMatch.mk cl.1 row cl.2 d')).filter
          (fun m => m.row == row + (i + 1)) = [] := by
      rw [List.filter_eq_nil_iff.2]
      intro m hm
      obtain ⟨cl, _, rfl⟩ := List.mem_map.1 hm
      simp only [beq_iff_eq]
      omega
    have h2 := scanLines_filter_at f ls (row + 1) i d (by simpa using h)
    have heq : row + 1 + i = row + (i + 1) := by omega
    rw [heq] at h2
    rw [h1, h2, List.nil_append]

theorem scanLines_filter_none (f : Str → List (Nat × Int)) (ls : List Str)
    (row r : Nat) (h : ls[r - row]? = none) :
    (scanLines f row ls).filter (fun m => m.row == r) = [] := by
  rw [List.filter_eq_nil_iff.2]
  intro m hm
  have hge := scanLines_row_ge f ls row m hm
  have hlt := scanLines_row_lt f ls row m hm
  have hlen : ls.length ≤ r - row := List.getElem?_eq_none_iff.1 h
  simp only [beq_iff_eq]
  omega

/-- Lexicographic strict order on matches: earlier row, or same row and
earlier column. -/
def matchLexLt (m1 m2 : TextMatch) : Prop :=
  m1.row < m2.row ∨ (m1.row = m2.row ∧ m1.column < m2.column)

theorem scanLines_chain (f : Str → List (Nat × Int))
    (hf : ∀ d, List.Chain' (fun a b => a.1 < b.1) (f d)) :
    ∀ (ls : List Str) (row : Nat),
      List.Chain' matchLexLt (scanLines f row ls)
  | [], row => by simp [scanLines]
  | d :: ls, row => by
    simp only [scanLines]
    refine List.chain'_append.2 ⟨?_, scanLines_chain f hf ls (row + 1), ?_⟩
    · rw [List.chain'_map]
      exact (hf d).imp fun a b h => Or.inr ⟨rfl, h⟩
    · intro x hx y hy
      have hxm : x ∈ (f d).map (fun cl => TextMatch.mk cl.1 row cl.2 d) :=
        List.mem_of_mem_getLast? hx
      have hym : y ∈ scanLines f (row + 1) ls := List.mem_of_mem_head? hy
      obtain ⟨cl, _, rfl⟩ := List.mem_map.1 hxm
      have := scanLines_row_ge f ls (row + 1) y hym
      exact Or.inl (by simp; omega)

/-- The hypotheses under which each matching mode emits strictly increasing
columns on every line: the pattern scanner needs a non-empty pattern (the
Rust loop never returns on an empty one), the regex side is the `find_iter`
contract of the external crate (successive non-overlapping matches). -/
def ModeOk (pattern : Str) : MatchingMode → Prop
  | .Pattern => pattern ≠ []
  | .Regex finder => ∀ data, List.Chain' (fun a b => a.1 < b.1) (finder data)

theorem lineMatcher_chain {pattern : Str} {cs : Bool} {mode : MatchingMode}
    (h : ModeOk pattern mode) (d : Str) :
    List.Chain' (fun a b => a.1 < b.1) (lineMatcher pattern cs mode d) := by
  cases mode with
  | Regex finder =>
    simp only [lineMatcher]
    rw [List.chain'_map]
    exact (h d).imp fun a b hab => hab
  | Pattern =>
    simp only [lineMatcher]
    rw [List.chain'_map]
    refine (searchLine_chain pattern cs d).imp fun a b hab => ?_
    have hlen : 0 < pattern.length := List.length_pos.2 h
    omega

/-! ## Lemmas: byte-level readers and writers -/

theorem readByte_eq {bs : List Byte} {b : Byte} {rest : List Byte}
    (h : readByte bs = some (b, rest)) : bs = b :: rest := by
  cases bs with
  | nil => simp [readByte] at h
  | cons x xs =>
    simp [readByte] at h
    simp [h.1, h.2]

theorem readBytes_spec : ∀ (n : Nat) (bs taken rest : List Byte),
    readBytes n bs = some (taken, rest) →
    taken.length = n ∧ taken ++ rest = bs
  | 0, bs, taken, rest, h => by
    simp only [readBytes, Option.some.injEq, Prod.mk.injEq] at h
    obtain ⟨rfl, rfl⟩ := h
    simp
  | n + 1, bs, taken, rest, h => by
    simp only [readBytes, bind, Option.bind_eq_some, Option.pure_def,
      Option.some.injEq, Prod.mk.injEq] at h
    obtain ⟨⟨b, bs1⟩, hb, ⟨tk, rs⟩, ht, rfl, rfl⟩ := h
    obtain ⟨ih1, ih2⟩ := readBytes_spec n bs1 tk rs ht
    have hbs := readByte_eq hb
    subst hbs
    simp [ih1, ih2]

theorem leBytes_length : ∀ (w n : Nat), (leBytes w n).length = w
  | 0, _ => rfl
  | w + 1, n => by simp [leBytes, leBytes_length w]

theorem leBytes_leValue : ∀ (raw : List Byte) (w : Nat), raw.length = w →
    leBytes w (leValue raw) = raw
  | [], 0, _ => rfl
  | [], w + 1, h => by simp at h
  | b :: raw, 0, h => by simp at h
  | b :: raw, w + 1, h => by
    simp only [List.length_cons] at h
    have hb := b.isLt
    have h1 : (b.val + 256 * leValue raw) % 256 = b.val := by omega
    have h2 : (b.val + 256 * leValue raw) / 256 = leValue raw := by omega
    simp only [leValue, leBytes]
    congr 1
    · exact Fin.ext h1
    · rw [h2]
      exact leBytes_leValue raw w (by omega)

theorem leValue_lt : ∀ (raw : List Byte),
    leValue raw < 2 ^ (8 * raw.length)
  | [] => by simp [leValue]
  | b :: raw => by
    have ih := leValue_lt raw
    have hb := b.isLt
    simp only [leValue, List.length_cons]
    have hpow : 2 ^ (8 * (raw.length + 1)) = 2 ^ (8 * raw.length) * 256 := by
      rw [Nat.mul_succ, Nat.pow_add]
    rw [hpow]
    omega

theorem readUnsigned_spec {w : Nat} {bs : List Byte} {u : Nat}
    {rest : List Byte} (h : readUnsigned w bs = some (u, rest)) :
    leBytes w u ++ rest = bs ∧ u < 2 ^ (8 * w) := by
  simp only [readUnsigned, bind, Option.bind_eq_some, Option.pure_def,
    Option.some.injEq, Prod.mk.injEq] at h
  obtain ⟨⟨raw, rs⟩, hr, rfl, rfl⟩ := h
  obtain ⟨hlen, happ⟩ := readBytes_spec w bs raw rs hr
  subst hlen
  exact ⟨by rw [leBytes_leValue raw _ rfl, happ], leValue_lt raw⟩

theorem toSigned_ofSigned {w u : Nat} (h : u < 2 ^ (8 * w)) :
    ofSigned w (toSigned w u) = u := by
  have hcast : ((2 : Int) ^ (8 * w)) = ((2 ^ (8 * w) : Nat) : Int) := by
    push_cast
    ring
  simp only [toSigned, ofSigned]
  split
  · rw [Int.emod_eq_of_lt (by positivity) (by rw [hcast]; exact_mod_cast h)]
    simp
  · rw [hcast, Int.emod_sub_cancel]
    rw [Int.emod_eq_of_lt (by positivity) (by exact_mod_cast h)]
    simp

theorem readSigned_spec {w : Nat} {bs : List Byte} {n : Int}
    {rest : List Byte} (h : readSigned w bs = some (n, rest)) :
    leBytes w (ofSigned w n) ++ rest = bs := by
  simp only [readSigned, bind, Option.bind_eq_some, Option.pure_def,
    Option.some.injEq, Prod.mk.injEq] at h
  obtain ⟨⟨u, rs⟩, hr, rfl, rfl⟩ := h
  obtain ⟨happ, hlt⟩ := readUnsigned_spec hr
  rw [toSigned_ofSigned hlt]
  exact happ

theorem readU16Unit_spec {bs : List Byte} {u : Fin 65536} {rest : List Byte}
    (h : readU16Unit bs = some (u, rest)) :
    leBytes 2 u.val ++ rest = bs := by
  simp only [readU16Unit, bind, Option.bind_eq_some, Option.pure_def] at h
  obtain ⟨⟨v, rs⟩, hr, hd⟩ := h
  by_cases hv : v < 65536
  · rw [dif_pos hv] at hd
    simp only [Option.some.injEq, Prod.mk.injEq] at hd
    obtain ⟨rfl, rfl⟩ := hd
    obtain ⟨happ, _⟩ := readUnsigned_spec hr
    exact happ
  · rw [dif_neg hv] at hd
    simp at hd

theorem readU16Units_spec : ∀ (n : Nat) (bs : List Byte)
    (us : List (Fin 65536)) (rest : List Byte),
    readU16Units n bs = some (us, rest) →
    (us.map (fun u => leBytes 2 u.val)).flatten ++ rest = bs ∧ us.length = n
  | 0, bs, us, rest, h => by
    simp only [readU16Units, Option.some.injEq, Prod.mk.injEq] at h
    obtain ⟨rfl, rfl⟩ := h
    simp
  | n + 1, bs, us, rest, h => by
    simp only [readU16Units, bind, Option.bind_eq_some, Option.pure_def,
      Option.some.injEq, Prod.mk.injEq] at h
    obtain ⟨⟨u, bs1⟩, hu, ⟨tus, rs⟩, ht, rfl, rfl⟩ := h
    obtain ⟨ih1, ih2⟩ := readU16Units_spec n bs1 tus rs ht
    have hb := readU16Unit_spec hu
    refine ⟨?_, by simp [ih2]⟩
    simp only [List.map_cons, List.flatten_cons, List.append_assoc]
    rw [ih1, hb]

/-! ## The codec round-trip: `encode (decode bytes) = bytes` -/

mutual

theorem decodeField_encode : ∀ (t : FieldType) (bs : List Byte)
    (v : FieldValue) (rest : List Byte),
    decodeField t bs = some (v, rest) → encodeField v ++ rest = bs
  | .boolean, bs, v, rest, h => by
    simp only [decodeField, bind, Option.bind_eq_some] at h
    obtain ⟨⟨b, bs1⟩, hb, hd⟩ := h
    have hbs := readByte_eq hb
    by_cases h0 : b.val = 0
    · rw [if_pos h0] at hd
      simp only [Option.pure_def, Option.some.injEq, Prod.mk.injEq] at hd
      obtain ⟨rfl, rfl⟩ := hd
      subst hbs
      have hbv : b = (0 : Byte) := Fin.ext (by simpa using h0)
      simp [encodeField, hbv]
    · rw [if_neg h0] at hd
      by_cases h1 : b.val = 1
      · rw [if_pos h1] at hd
        simp only [Option.pure_def, Option.some.injEq, Prod.mk.injEq] at hd
        obtain ⟨rfl, rfl⟩ := hd
        subst hbs
        have hbv : b = (1 : Byte) := Fin.ext (by simpa using h1)
        simp [encodeField, hbv]
      · rw [if_neg h1] at hd
        simp at hd
  | .f32, bs, v, rest, h => by
    simp only [decodeField, bind, Option.bind_eq_some, Option.pure_def,
      Option.some.injEq, Prod.mk.injEq] at h
    obtain ⟨⟨raw, rs⟩, hr, rfl, rfl⟩ := h
    obtain ⟨_, happ⟩ := readBytes_spec 4 bs raw rs hr
    simpa [encodeField] using happ
  | .f64, bs, v, rest, h => by
    simp only [decodeField, bind, Option.bind_eq_some, Option.pure_def,
      Option.some.injEq, Prod.mk.injEq] at h
    obtain ⟨⟨raw, rs⟩, hr, rfl, rfl⟩ := h
    obtain ⟨_, happ⟩ := readBytes_spec 8 bs raw rs hr
    simpa [encodeField] using happ
  | .i16, bs, v, rest, h => by
    simp only [decodeField, bind, Option.bind_eq_some, Option.pure_def,
      Option.some.injEq, Prod.mk.injEq] at h
    obtain ⟨⟨n, rs⟩, hr, rfl, rfl⟩ := h
    simpa [encodeField] using readSigned_spec hr
  | .i32, bs, v, rest, h => by
    simp only [decodeField, bind, Option.bind_eq_some, Option.pure_def,
      Option.some.injEq, Prod.mk.injEq] at h
    obtain ⟨⟨n, rs⟩, hr, rfl, rfl⟩ := h
    simpa [encodeField] using readSigned_spec hr
  | .i64, bs, v, rest, h => by
    simp only [decodeField, bind, Option.bind_eq_some, Option.pure_def,
      Option.some.injEq, Prod.mk.injEq] at h
    obtain ⟨⟨n, rs⟩, hr, rfl, rfl⟩ := h
    simpa [encodeField] using readSigned_spec hr
  | .colour, bs, v, rest, h => by
    simp only [decodeField, bind, Option.bind_eq_some, Option.pure_def,
      Option.some.injEq, Prod.mk.injEq] at h
    obtain ⟨⟨raw, rs⟩, hr, rfl, rfl⟩ := h
    obtain ⟨_, happ⟩ := readBytes_spec 3 bs raw rs hr
    simpa [encodeField] using happ
  | .stringU8, bs, v, rest, h => by
    simp only [decodeField, bind, Option.bind_eq_some, Option.pure_def,
      Option.some.injEq, Prod.mk.injEq] at h
    obtain ⟨⟨len, bs1⟩, hl, ⟨sb, rs⟩, hsb, rfl, rfl⟩ := h
    obtain ⟨hl1, _⟩ := readUnsigned_spec hl
    obtain ⟨hsl, hsapp⟩ := readBytes_spec len bs1 sb rs hsb
    subst hsl
    simp only [encodeField, List.append_assoc]
    rw [hsapp, hl1]
  | .stringU16, bs, v, rest, h => by
    simp only [decodeField, bind, Option.bind_eq_some, Option.pure_def,
      Option.some.injEq, Prod.mk.injEq] at h
    obtain ⟨⟨len, bs1⟩, hl, ⟨us, rs⟩, hus, rfl, rfl⟩ := h
    obtain ⟨hl1, _⟩ := readUnsigned_spec hl
    obtain ⟨happ, hulen⟩ := readU16Units_spec len bs1 us rs hus
    subst hulen
    simp only [encodeField, List.append_assoc]
    rw [happ, hl1]
  | .optional base, bs, v, rest, h => by
    simp only [decodeField, bind, Option.bind_eq_some] at h
    obtain ⟨⟨flag, bs1⟩, hb, hd⟩ := h
    have hbs := readByte_eq hb
    by_cases h0 : flag.val = 0
    · rw [if_pos h0] at hd
      simp only [Option.pure_def, Option.some.injEq, Prod.mk.injEq] at hd
      obtain ⟨rfl, rfl⟩ := hd
      subst hbs
      have hf : flag = (0 : Byte) := Fin.ext (by simpa using h0)
      simp [encodeField, hf]
    · rw [if_neg h0] at hd
      by_cases h1 : flag.val = 1
      · rw [if_pos h1] at hd
        simp only [bind, Option.bind_eq_some, Option.pure_def,
          Option.some.injEq, Prod.mk.injEq] at hd
        obtain ⟨⟨v1, rs⟩, hv, rfl, rfl⟩ := hd
        have ih := decodeField_encode base bs1 v1 rs hv
        subst hbs
        have hf : flag = (1 : Byte) := Fin.ext (by simpa using h1)
        simp [encodeField, hf, ih]
      · rw [if_neg h1] at hd
        simp at hd
  | .sequence sub, bs, v, rest, h => by
    simp only [decodeField, bind, Option.bind_eq_some, Option.pure_def,
      Option.some.injEq, Prod.mk.injEq] at h
    obtain ⟨⟨count, bs1⟩, hc, ⟨rows, rs⟩, hrows, rfl, rfl⟩ := h
    obtain ⟨hc1, _⟩ := readUnsigned_spec hc
    obtain ⟨happ, hlen⟩ := decodeRows_encode sub count bs1 rows rs hrows
    subst hlen
    simp only [encodeField, List.append_assoc]
    rw [happ, hc1]
termination_by t _ _ _ _ => (sizeOf t, 0)
decreasing_by all_goals (simp_wf; try apply Prod.Lex.left; omega)

theorem decodeRow_encode : ∀ (fs : Definition) (bs : List Byte)
    (vs : List FieldValue) (rest : List Byte),
    decodeRow fs bs = some (vs, rest) → encodeRowVals vs ++ rest = bs
  | [], bs, vs, rest, h => by
    simp only [decodeRow, Option.some.injEq, Prod.mk.injEq] at h
    obtain ⟨rfl, rfl⟩ := h
    simp [encodeRowVals]
  | f :: fs, bs, vs, rest, h => by
    simp only [decodeRow, bind, Option.bind_eq_some, Option.pure_def,
      Option.some.injEq, Prod.mk.injEq] at h
    obtain ⟨⟨v, bs1⟩, hv, ⟨tvs, rs⟩, htvs, rfl, rfl⟩ := h
    have ih1 := decodeField_encode f bs v bs1 hv
    have ih2 := decodeRow_encode fs bs1 tvs rs htvs
    simp only [encodeRowVals, List.append_assoc]
    rw [ih2, ih1]
termination_by fs _ _ _ _ => (sizeOf fs, 0)
decreasing_by all_goals (simp_wf; try apply Prod.Lex.left; omega)

theorem decodeRows_encode : ∀ (fs : Definition) (n : Nat) (bs : List Byte)
    (rws : List (List FieldValue)) (rest : List Byte),
    decodeRows fs n bs = some (rws, rest) →
    encodeRows rws ++ rest = bs ∧ rws.length = n
  | fs, 0, bs, rws, rest, h => by
    simp only [decodeRows, Option.some.injEq, Prod.mk.injEq] at h
    obtain ⟨rfl, rfl⟩ := h
    simp [encodeRows]
  | fs, n + 1, bs, rws, rest, h => by
    simp only [decodeRows, bind, Option.bind_eq_some, Option.pure_def,
      Option.some.injEq, Prod.mk.injEq] at h
    obtain ⟨⟨r, bs1⟩, hr, ⟨trs, rs1⟩, htrs, rfl, rfl⟩ := h
    have ih1 := decodeRow_encode fs bs r bs1 hr
    obtain ⟨ih2, ih3⟩ := decodeRows_encode fs n bs1 trs rs1 htrs
    refine ⟨?_, by simp [ih3]⟩
    simp only [encodeRows, List.append_assoc]
    rw [ih2, ih1]
termination_by fs n _ _ _ _ => (sizeOf fs, n + 1)
decreasing_by all_goals (simp_wf; apply Prod.Lex.right; omega)

end

theorem expectBytes_spec {marker bs rest : List Byte}
    (h : expectBytes marker bs = some rest) : marker ++ rest = bs := by
  simp only [expectBytes] at h
  by_cases ht : bs.take marker.length = marker
  · rw [if_pos ht] at h
    simp at h
    subst h
    nth_rewrite 1 [← ht]
    exact List.take_append_drop _ _
  · rw [if_neg ht] at h
    simp at h

theorem expectBytes_append (marker r : List Byte) :
    expectBytes marker (marker ++ r) = some r := by
  simp [expectBytes, List.take_left, List.drop_left]

theorem readBytes_append : ∀ (n : Nat) (l r : List Byte), l.length = n →
    readBytes n (l ++ r) = some (l, r)
  | 0, l, r, h => by
    obtain rfl : l = [] := List.length_eq_zero.1 h
    rfl
  | n + 1, l, r, h => by
    cases l with
    | nil => simp at h
    | cons b l' =>
      simp only [List.length_cons] at h
      simp only [readBytes, List.cons_append, readByte]
      show (readBytes n (l' ++ r)).bind
          (fun d1 => some (b :: d1.1, d1.2)) = some (b :: l', r)
      rw [readBytes_append n l' r (by omega)]
      rfl

theorem leValue_leBytes : ∀ (w n : Nat), n < 2 ^ (8 * w) →
    leValue (leBytes w n) = n
  | 0, n, h => by
    simp only [Nat.mul_zero, Nat.pow_zero] at h
    simp [leBytes, leValue]
    omega
  | w + 1, n, h => by
    simp only [leBytes, leValue]
    rw [leValue_leBytes w (n / 256) (by
      rw [Nat.div_lt_iff_lt_mul (by norm_num)]
      calc n < 2 ^ (8 * (w + 1)) := h
        _ = 2 ^ (8 * w) * 256 := by rw [Nat.mul_succ, Nat.pow_add])]
    omega

theorem readUnsigned_leBytes (w n : Nat) (r : List Byte)
    (h : n < 2 ^ (8 * w)) : readUnsigned w (leBytes w n ++ r) = some (n, r) := by
  simp only [readUnsigned]
  rw [readBytes_append w _ r (leBytes_length w n)]
  simp [leValue_leBytes w n h]

/-- Re-encoding a successfully decoded table reproduces the input bytes
exactly, opaque tail included. -/
theorem decodeTable_encode (defs : Nat → Option Definition) (bs : List Byte)
    (t : DecodedTable) (h : decodeTable defs bs = .ok t) :
    encodeTable t = bs := by
  simp only [decodeTable] at h
  split at h
  · simp at h
  · next bs1 he =>
    split at h
    · simp at h
    · next version bs2 hv =>
      split at h
      · simp at h
      · next defn hd =>
        split at h
        · simp at h
        · next count bs3 hc =>
          split at h
          · simp at h
          · next rows tail hr =>
            simp only [Except.ok.injEq] at h
            subst h
            obtain ⟨hv1, _⟩ := readUnsigned_spec hv
            obtain ⟨hc1, _⟩ := readUnsigned_spec hc
            obtain ⟨hrw, hlen⟩ := decodeRows_encode defn count bs3 rows tail hr
            have hm := expectBytes_spec he
            subst hlen
            simp only [encodeTable, List.append_assoc]
            rw [hrw, hc1, hv1, hm]

/-- A table whose stamped version has no registered Definition fails with
the distinct schema error, not a generic format error. -/
theorem decodeTable_missingDefinition (defs : Nat → Option Definition)
    (v : Nat) (r : List Byte) (hv : v < 2 ^ 32) (hd : defs v = none) :
    decodeTable defs (tableMarker ++ (leBytes 4 v ++ r))
      = .error (.missingDefinition v) := by
  have h32 : v < 2 ^ (8 * 4) := by simpa using hv
  have hru := readUnsigned_leBytes 4 v r h32
  simp only [decodeTable, expectBytes_append, hru, hd]

/-! ## Small list helpers -/

theorem list_getElem?_set_ne {α : Type} : ∀ (l : List α) (i j : Nat) (a : α),
    i ≠ j → (l.set i a)[j]? = l[j]?
  | [], _, _, _, _ => by simp
  | b :: l, 0, 0, a, h => absurd rfl h
  | b :: l, 0, j + 1, a, h => by simp [List.set]
  | b :: l, i + 1, 0, a, h => by simp [List.set]
  | b :: l, i + 1, j + 1, a, h => by
    simp only [List.set, List.getElem?_cons_succ]
    exact list_getElem?_set_ne l i j a (by omega)

theorem list_getElem?_dropLast {α : Type} : ∀ (l : List α) (i : Nat),
    i < l.length - 1 → l.dropLast[i]? = l[i]?
  | [], i, h => by simp at h
  | [a], i, h => by simp at h
  | a :: b :: t, 0, h => by simp [List.dropLast]
  | a :: b :: t, i + 1, h => by
    simp only [List.dropLast_cons₂, List.getElem?_cons_succ]
    refine list_getElem?_dropLast (b :: t) i ?_
    simp only [List.length_cons] at h ⊢
    omega

end RPFM

namespace RPFM

/-! ## Claim theorems -/

/-- Claim C2: on the line `"fooBar foo"` with recorded matches at
`(row 0, col 0, len 3)` and `(row 0, col 7, len 3)`, `Text::replace` with
`"X"` — which processes the match list in reverse, i.e. the higher column
first, so the lower-offset match's recorded position stays valid — yields
exactly `"XBar X"` and reports an edit. -/
theorem C2_reverse_order_replace_yields_XBarX :
    (Text.mk "fooBar foo".toList).replace "X".toList
      (TextMatches.mk "file"
        [⟨0, 0, 3, "fooBar foo".toList⟩, ⟨7, 0, 3, "fooBar foo".toList⟩])
      = some (true, Text.mk "XBar X".toList) := by decide

/-- Claim C4: on any `Text` one of whose lines is `"FooBar foo"`, a
case-insensitive literal-pattern search for `"foo"` reports on that line
exactly two matches, at columns 0 and 7, each of length 3. -/
theorem C4_case_insensitive_search_two_matches (t : Text) (r : Nat)
    (h : (rustLines t.contents)[r]? = some "FooBar foo".toList) :
    ((t.search "file" "foo".toList false .Pattern).«matches».filter
        (fun m => m.row == r))
      = [⟨0, r, 3, "FooBar foo".toList⟩, ⟨7, r, 3, "FooBar foo".toList⟩] := by
  have hfilter := scanLines_filter_at
    (lineMatcher "foo".toList false .Pattern) (rustLines t.contents) 0 r _ h
  simp only [Nat.zero_add] at hfilter
  rw [show (Text.search t "file" "foo".toList false .Pattern).«matches»
      = scanLines (lineMatcher "foo".toList false .Pattern) 0
        (rustLines t.contents) from rfl]
  rw [hfilter]
  have hlm : lineMatcher "foo".toList false .Pattern "FooBar foo".toList
      = [(0, (3 : Int)), (7, 3)] := by decide
  rw [hlm]
  rfl

/-- Witness for C4 at the concrete one-line text `"FooBar foo"`. -/
theorem C4_witness :
    (rustLines (Text.mk "FooBar foo".toList).contents)[0]?
        = some "FooBar foo".toList ∧
    (((Text.mk "FooBar foo".toList).search "file" "foo".toList false
        .Pattern).«matches».filter (fun m => m.row == 0))
      = [⟨0, 0, 3, "FooBar foo".toList⟩, ⟨7, 0, 3, "FooBar foo".toList⟩] :=
  ⟨by decide,
   C4_case_insensitive_search_two_matches (Text.mk "FooBar foo".toList) 0
     (by decide)⟩

/-- Claim C5 (amended): the case-insensitive branch of the pattern scan
lowercases only the line, not the pattern; so a pattern that is *already
lowercase* matches every line equal to it up to case (at column 0, as the
only match), while a pattern containing uppercase letters matches nothing
at all — see the counterexample. -/
theorem C5_lowercase_pattern_matches (p line : Str) (hp : p ≠ [])
    (hlow : lowerStr p = p) (heq : lowerStr line = lowerStr p) :
    searchLine p false line = [0] := by
  obtain ⟨k, hk⟩ : ∃ k, p.length = k + 1 := by
    cases p with
    | nil => exact absurd rfl hp
    | cons a l => exact ⟨l.length, by simp⟩
  have hlen : line.length = p.length := by
    have h1 : (lowerStr line).length = line.length := by simp [lowerStr]
    have h2 : (lowerStr p).length = p.length := by simp [lowerStr]
    rw [← h1, heq, h2]
  have hfind1 : findSub p (lowerStr line) = some 0 := by
    rw [heq, hlow]
    cases p with
    | nil => exact absurd rfl hp
    | cons a l => simp [findSub, strStartsWith]
  have hfind2 : findSub p [] = none := by
    cases hq : p with
    | nil => exact absurd hq hp
    | cons a l => simp [findSub, strStartsWith]
  have hdrop : line.drop p.length = [] := by
    rw [← hlen]
    exact List.drop_length line
  simp only [searchLine, hlen, hk]
  simp only [searchLineAux, strGetFrom]
  rw [if_pos (by omega)]
  simp only [List.drop_zero, Bool.false_eq_true, if_false, hfind1]
  rw [if_pos (by omega)]
  simp only [Nat.zero_add, Nat.add_zero, ← hk, hdrop]
  simp only [lowerStr, List.map_nil, hfind2]

/-- Counterexample to claim C5 as stated: `"FOO"` and `"foo"` are equal up
to case, yet the case-insensitive search of `"FOO"` over the text `"foo"`
reports no match, because only the haystack line is lowercased. -/
theorem C5_counterexample :
    lowerStr "FOO".toList = lowerStr "foo".toList ∧
    (Text.mk "foo".toList).search "file" "FOO".toList false .Pattern
      = TextMatches.mk "file" [] := by decide

/-- Claim C7: for every text, non-empty pattern and case flag, the matches
the pattern scan reports on any single line have pairwise non-overlapping
columns: each column is at least the previous one plus the pattern length.
(The non-emptiness hypothesis reflects that the Rust scan loop never
returns on an empty pattern.) -/
theorem C7_matches_non_overlapping (t : Text) (path : String) (p : Str)
    (cs : Bool) (r : Nat) (_hp : p ≠ []) :
    List.Chain' (fun a b => a + p.length ≤ b)
      (((t.search path p cs .Pattern).«matches».filter
          (fun m => m.row == r)).map (fun m => m.column)) := by
  rw [show (Text.search t path p cs .Pattern).«matches»
      = scanLines (lineMatcher p cs .Pattern) 0
        (rustLines t.contents) from rfl]
  cases hget : (rustLines t.contents)[r]? with
  | none =>
    rw [scanLines_filter_none _ _ 0 r (by simpa using hget)]
    simp
  | some d =>
    have hfilter := scanLines_filter_at (lineMatcher p cs .Pattern)
      (rustLines t.contents) 0 r d hget
    simp only [Nat.zero_add] at hfilter
    rw [hfilter, List.map_map]
    have hcomp : ((fun m : TextMatch => m.column)
          ∘ (fun cl : Nat × Int => TextMatch.mk cl.1 r cl.2 d))
        = fun cl : Nat × Int => cl.1 := rfl
    rw [hcomp]
    simp only [lineMatcher, List.map_map]
    have hcomp2 : ((fun cl : Nat × Int => cl.1)
          ∘ (fun c : Nat => (c, (p.length : Int)))) = fun c : Nat => c := rfl
    rw [hcomp2]
    simpa using searchLine_chain p cs d

/-- Witness for C7 on a concrete two-line text. -/
theorem C7_witness :
    ("oo".toList : Str) ≠ [] ∧
    List.Chain' (fun a b => a + ("oo".toList : Str).length ≤ b)
      ((((Text.mk "fooo\noo oo".toList).search "f" "oo".toList true
          .Pattern).«matches».filter (fun m => m.row == 1)).map
        (fun m => m.column)) :=
  ⟨by decide,
   C7_matches_non_overlapping (Text.mk "fooo\noo oo".toList) "f" "oo".toList
     true 1 (by decide)⟩

/-- Claim C9: every match list `Text::search` returns is sorted strictly by
`(row, column)`: matches are emitted line by line, and within a line with
strictly increasing columns — so iterating the list in reverse processes
each line's matches from the highest column down, which is exactly what
`Text::replace` relies on.  For the pattern arm this needs the non-empty
pattern (the scan never returns otherwise); for the regex arm it is the
`find_iter` contract of the external crate (successive non-overlapping
matches at strictly increasing starts), captured by `ModeOk`. -/
theorem C9_search_matches_sorted (t : Text) (path : String) (p : Str)
    (cs : Bool) (mode : MatchingMode) (h : ModeOk p mode) :
    List.Chain' matchLexLt ((t.search path p cs mode).«matches») :=
  scanLines_chain (lineMatcher p cs mode) (fun d => lineMatcher_chain h d)
    (rustLines t.contents) 0

/-- Witness for C9: a concrete multi-line, multi-match pattern search. -/
theorem C9_witness :
    ModeOk "o".toList MatchingMode.Pattern ∧
    List.Chain' matchLexLt
      (((Text.mk "foo\nboo".toList).search "f" "o".toList true
          .Pattern).«matches») :=
  ⟨by show ("o".toList : Str) ≠ []; decide,
   C9_search_matches_sorted (Text.mk "foo\nboo".toList) "f" "o".toList true
     .Pattern (by show ("o".toList : Str) ≠ []; decide)⟩

/-- Witness for the amended C5: lowercase `"foo"` does match `"FOO"`. -/
theorem C5_witness :
    ("foo".toList : Str) ≠ [] ∧ lowerStr "foo".toList = "foo".toList ∧
    lowerStr "FOO".toList = lowerStr "foo".toList ∧
    searchLine "foo".toList false "FOO".toList = [0] :=
  ⟨by decide, by decide, by decide,
   C5_lowercase_pattern_matches "foo".toList "FOO".toList (by decide)
     (by decide) (by decide)⟩

/-- Claim C6 (amended): `Text::replace` returning `false` guarantees the
contents are unchanged; and replacing every match by the exact text it
covers is a no-op that returns `false` and keeps the contents — *provided*
the contents are in line-normal form (joining the split lines reproduces
them, i.e. no trailing newline and no `\r\n`).  On non-normal contents an
identical-text replacement strips the trailing newline and reports `true`,
and a cancelling pair of edits can report `true` with unchanged contents —
see the counterexample. -/
theorem C6_noop_replace_reports_false (self : Text) (R : Str)
    (sm : TextMatches) :
    (∀ (e : Bool) (d : Text), self.replace R sm = some (e, d) → e = false →
      d.contents = self.contents) ∧
    (joinLines (rustLines self.contents) = self.contents →
     (∀ m ∈ sm.«matches», ∀ l, (rustLines self.contents)[m.row]? = some l →
        m.column + i64AsUsize m.len ≤ l.length ∧
        R = (l.drop m.column).take (i64AsUsize m.len)) →
     self.replace R sm = some (false, Text.mk self.contents)) := by
  constructor
  · intro e d h he
    subst he
    simp only [Text.replace, bind, Option.bind_eq_some, Option.pure_def,
      Option.some.injEq, Prod.mk.injEq] at h
    obtain ⟨⟨e1, c1⟩, hfold, he1, hd1⟩ := h
    obtain ⟨_, hunch⟩ := foldl_replaceStep_spec R sm.«matches».reverse false
      self.contents e1 c1 hfold
    rw [← hd1]
    simp only [hunch he1]
  · intro hnorm hms
    have hfold := foldl_replaceStep_noop R hnorm sm.«matches».reverse false
      (fun m hm => hms m (List.mem_reverse.1 hm))
    simp only [Text.replace, hfold]
    rfl

/-- Counterexample to claim C6 as stated: replacing `"foo"` by the
identical `"foo"` on contents `"foo\n"` reports `true` and rewrites the
contents to `"foo"` (the trailing newline is lost in the line split/join);
and a cancelling pair of matches replaced by `"aa"` on `"aaa"` reports
`true` while leaving the contents unchanged, so `true` does not imply a net
change either. -/
theorem C6_counterexample :
    ((Text.mk "foo\n".toList).replace "foo".toList
        (TextMatches.mk "f" [⟨0, 0, 3, "foo".toList⟩])
      = some (true, Text.mk "foo".toList)) ∧
    ((Text.mk "aaa".toList).replace "aa".toList
        (TextMatches.mk "f"
          [⟨0, 0, 3, "aaa".toList⟩, ⟨0, 0, 1, "aaa".toList⟩])
      = some (true, Text.mk "aaa".toList)) := by decide

/-- Witness for the amended C6: an identical-text replacement on the
line-normal contents `"fooBar foo"` reports `false` and changes nothing. -/
theorem C6_witness :
    joinLines (rustLines "fooBar foo".toList) = "fooBar foo".toList ∧
    (Text.mk "fooBar foo".toList).replace "foo".toList
      (TextMatches.mk "f"
        [⟨0, 0, 3, "fooBar foo".toList⟩, ⟨7, 0, 3, "fooBar foo".toList⟩])
      = some (false, Text.mk "fooBar foo".toList) :=
  ⟨by decide,
   (C6_noop_replace_reports_false (Text.mk "fooBar foo".toList) "foo".toList
       (TextMatches.mk "f"
         [⟨0, 0, 3, "fooBar foo".toList⟩,
          ⟨7, 0, 3, "fooBar foo".toList⟩])).2
     (by decide) (by decide)⟩

/-- Claim C10 (amended): a successful `TextMatch::replace` leaves every
line other than the matched row unchanged, *provided* the replacement text
contains no newline or carriage return, the contents contain no carriage
return, and the split contents have no trailing empty line.  (A replacement
containing `'\n'` re-splits and shifts all later lines — see the
counterexample.) -/
theorem C10_replace_touches_only_matched_row (m : TextMatch) (R s : Str)
    (e : Bool) (d : Str)
    (hR1 : '\n' ∉ R) (hR2 : '\r' ∉ R) (hs : '\r' ∉ s)
    (hlast : (rustLines s).getLast? ≠ some [])
    (hrep : m.replace R s = some (e, d)) :
    ∀ i, i ≠ m.row → (rustLines d)[i]? = (rustLines s)[i]? := by
  have hns : ∀ l ∈ rustLines s, '\n' ∉ l ∧ '\r' ∉ l := fun l hl =>
    ⟨rustLines_no_nl hl, fun hc => hs (rustLines_chars_subset hl _ hc)⟩
  simp only [TextMatch.replace, bind, Option.bind_eq_some] at hrep
  obtain ⟨newLines, hrw, hif⟩ := hrep
  by_cases hj : joinLines newLines = s
  · rw [if_neg (not_not_intro hj)] at hif
    simp only [Option.pure_def, Option.some.injEq, Prod.mk.injEq] at hif
    obtain ⟨-, rfl⟩ := hif
    intro i _
    rfl
  · rw [if_pos hj] at hif
    simp only [Option.pure_def, Option.some.injEq, Prod.mk.injEq] at hif
    obtain ⟨-, rfl⟩ := hif
    intro i hi
    cases hget : (rustLines s)[m.row]? with
    | none =>
      have hge : (rustLines s).length ≤ m.row :=
        List.getElem?_eq_none_iff.1 hget
      rw [rewriteRow_of_ge _ 0 (by omega)] at hrw
      obtain rfl : newLines = rustLines s := by simpa using hrw.symm
      rw [rustLines_joinLines hns, if_neg hlast]
    | some l =>
      have hlmem : l ∈ rustLines s := List.getElem?_mem hget
      have hmlt : m.row < (rustLines s).length := by
        rcases List.getElem?_eq_some.1 hget with ⟨hl, _⟩
        exact hl
      rw [rewriteRow_at _ 0 m.row l (by omega) hget] at hrw
      cases hrr : replaceRange l m.column (m.column + i64AsUsize m.len) R with
      | none => rw [hrr] at hrw; simp at hrw
      | some nl =>
        rw [hrr] at hrw
        obtain rfl : newLines = (rustLines s).set m.row nl := by
          simpa using hrw.symm
        have hnl : '\n' ∉ nl ∧ '\r' ∉ nl := by
          have hnl_eq : nl = l.take m.column ++ R
              ++ l.drop (m.column + i64AsUsize m.len) := by
            simp only [replaceRange] at hrr
            split at hrr
            · simpa using hrr.symm
            · simp at hrr
          subst hnl_eq
          have hl := hns l hlmem
          constructor <;>
          · intro hmem
            rcases List.mem_append.1 hmem with h1 | h1
            rotate_left
            · first
              | exact hl.1 (List.mem_of_mem_drop h1)
              | exact hl.2 (List.mem_of_mem_drop h1)
            rcases List.mem_append.1 h1 with h2 | h2
            · first
              | exact hl.1 (List.mem_of_mem_take h2)
              | exact hl.2 (List.mem_of_mem_take h2)
            · first
              | exact hR1 h2
              | exact hR2 h2
        have hset : ∀ x ∈ (rustLines s).set m.row nl, '\n' ∉ x ∧ '\r' ∉ x := by
          intro x hx
          rcases List.mem_or_eq_of_mem_set hx with hx1 | hx1
          · exact hns x hx1
          · subst hx1
            exact hnl
        rw [rustLines_joinLines hset]
        have hlen_set : ((rustLines s).set m.row nl).length
            = (rustLines s).length := List.length_set _ _ _
        by_cases hlastset :
            ((rustLines s).set m.row nl).getLast? = some ([] : Str)
        · rw [if_pos hlastset]
          have hrowlast : m.row = (rustLines s).length - 1 := by
            by_contra hne
            apply hlast
            rw [← hlastset, List.getLast?_eq_getElem?,
              List.getLast?_eq_getElem?, hlen_set]
            exact (list_getElem?_set_ne _ _ _ _ (fun hh => hne hh)).symm
          by_cases hin : i < (rustLines s).length - 1
          · rw [list_getElem?_dropLast _ i (by rw [hlen_set]; omega)]
            exact list_getElem?_set_ne _ _ _ _ (fun hh => hi (hh.symm))
          · rw [List.getElem?_eq_none (by
                rw [List.length_dropLast, hlen_set]; omega)]
            rw [List.getElem?_eq_none (by omega)]
        · rw [if_neg hlastset]
          exact list_getElem?_set_ne _ _ _ _ (fun hh => hi (hh.symm))

/-- Counterexample to claim C10 as stated: a replacement containing a
newline rewrites line 1 as well (`"def"` becomes `"Ybc"`). -/
theorem C10_counterexample :
    (((⟨0, 0, 1, "abc".toList⟩ : TextMatch).replace "X\nY".toList
        "abc\ndef".toList).map (fun r => (rustLines r.2)[1]?)
      = some (some "Ybc".toList)) ∧
    (rustLines "abc\ndef".toList)[1]? = some "def".toList ∧
    ("Ybc".toList : Str) ≠ "def".toList := by decide

/-- Witness for the amended C10 on a concrete two-line text. -/
theorem C10_witness :
    (⟨2, 0, 1, "abc".toList⟩ : TextMatch).replace "X".toList
        "abc\ndef".toList = some (true, "abX\ndef".toList) ∧
    (rustLines "abX\ndef".toList)[1]? = (rustLines "abc\ndef".toList)[1]? :=
  ⟨by decide,
   C10_replace_touches_only_matched_row ⟨2, 0, 1, "abc".toList⟩ "X".toList
     "abc\ndef".toList true "abX\ndef".toList (by decide) (by decide)
     (by decide) (by decide) (by decide) 1 (by decide)⟩

/-- Claim C3: both `GoToDefinition` and `GoToLoc` resolve a lookup in the
strict layer priority current container → parent containers → vanilla game
files → assembly-kit-only tables (no assembly-kit layer exists for Locs):
each equals the spec's first-hit-wins resolution over the per-layer
results, and once the current container produces a hit the result does not
depend on any lower layer. -/
theorem C3_layered_lookup_strict_priority :
    (∀ (localFiles : List LookupFile)
        (parentFiles vanillaFiles : Option (List LookupFile))
        (asskitTable : Option LookupTable) (tableFolder column value : String),
      goToDefinition localFiles parentFiles vanillaFiles asskitTable
          tableFolder column value
        = specPriorityResolve
            [(.PackFile, searchLayer column value localFiles),
             (.ParentFiles, parentFiles.bind (searchLayer column value)),
             (.GameFiles, vanillaFiles.bind (searchLayer column value)),
             (.AssKitFiles,
               (asskitTable.bind (rowsContainingData column value)).map
                 (fun cr => (tableFolder ++ "/ak_data", cr.1,
                   cr.2.headD 0)))]) ∧
    (∀ (localFiles : List LookupFile)
        (parentFiles vanillaFiles : Option (List LookupFile))
        (locKey : String),
      goToLoc localFiles parentFiles vanillaFiles locKey
        = specPriorityResolve
            [(.PackFile, searchLayer "key" locKey localFiles),
             (.ParentFiles, parentFiles.bind (searchLayer "key" locKey)),
             (.GameFiles, vanillaFiles.bind (searchLayer "key" locKey))]) ∧
    (∀ (localFiles : List LookupFile)
        (parentFiles vanillaFiles parentFiles' vanillaFiles'
          : Option (List LookupFile))
        (asskitTable asskitTable' : Option LookupTable)
        (tableFolder tableFolder' column value : String)
        (hit : String × Nat × Nat),
      searchLayer column value localFiles = some hit →
      goToDefinition localFiles parentFiles vanillaFiles asskitTable
          tableFolder column value
        = goToDefinition localFiles parentFiles' vanillaFiles' asskitTable'
          tableFolder' column value) := by
  refine ⟨?_, ?_, ?_⟩
  · intro localFiles parentFiles vanillaFiles asskitTable tableFolder column
      value
    cases h1 : searchLayer column value localFiles with
    | some hit =>
      obtain ⟨p, ci, ri⟩ := hit
      simp [goToDefinition, specPriorityResolve, h1]
    | none =>
      cases h2 : parentFiles.bind (searchLayer column value) with
      | some hit =>
        obtain ⟨p, ci, ri⟩ := hit
        simp [goToDefinition, specPriorityResolve, h1, h2]
      | none =>
        cases h3 : vanillaFiles.bind (searchLayer column value) with
        | some hit =>
          obtain ⟨p, ci, ri⟩ := hit
          simp [goToDefinition, specPriorityResolve, h1, h2, h3]
        | none =>
          cases h4 : asskitTable.bind (rowsContainingData column value) with
          | some cr =>
            obtain ⟨ci, ris⟩ := cr
            simp [goToDefinition, specPriorityResolve, h1, h2, h3, h4]
          | none =>
            simp [goToDefinition, specPriorityResolve, h1, h2, h3, h4]
  · intro localFiles parentFiles vanillaFiles locKey
    cases h1 : searchLayer "key" locKey localFiles with
    | some hit =>
      obtain ⟨p, ci, ri⟩ := hit
      simp [goToLoc, specPriorityResolve, h1]
    | none =>
      cases h2 : parentFiles.bind (searchLayer "key" locKey) with
      | some hit =>
        obtain ⟨p, ci, ri⟩ := hit
        simp [goToLoc, specPriorityResolve, h1, h2]
      | none =>
        cases h3 : vanillaFiles.bind (searchLayer "key" locKey) with
        | some hit =>
          obtain ⟨p, ci, ri⟩ := hit
          simp [goToLoc, specPriorityResolve, h1, h2, h3]
        | none =>
          simp [goToLoc, specPriorityResolve, h1, h2, h3]
  · intro localFiles parentFiles vanillaFiles parentFiles' vanillaFiles'
      asskitTable asskitTable' tableFolder tableFolder' column value hit hsl
    obtain ⟨p, ci, ri⟩ := hit
    simp [goToDefinition, hsl]

/-- Witness for C3: a value present in the current container, a parent and
the vanilla layer resolves to the current container's row; the lower
layers' contents are irrelevant. -/
theorem C3_witness :
    searchLayer "key_col" "v"
        [LookupFile.mk "db/units_tables/data"
          (some (LookupTable.mk ["key_col"] [["v"]]))]
      = some ("db/units_tables/data", 0, 0) ∧
    goToDefinition
        [LookupFile.mk "db/units_tables/data"
          (some (LookupTable.mk ["key_col"] [["v"]]))]
        (some [LookupFile.mk "parent" (some (LookupTable.mk ["key_col"] [["v"]]))])
        (some [LookupFile.mk "vanilla" (some (LookupTable.mk ["key_col"] [["v"]]))])
        none "db/units_tables" "key_col" "v"
      = goToDefinition
        [LookupFile.mk "db/units_tables/data"
          (some (LookupTable.mk ["key_col"] [["v"]]))]
        none none (some (LookupTable.mk ["key_col"] [["v"]]))
        "other_folder" "key_col" "v" :=
  ⟨by decide,
   C3_layered_lookup_strict_priority.2.2
     [LookupFile.mk "db/units_tables/data"
       (some (LookupTable.mk ["key_col"] [["v"]]))]
     (some [LookupFile.mk "parent" (some (LookupTable.mk ["key_col"] [["v"]]))])
     (some [LookupFile.mk "vanilla" (some (LookupTable.mk ["key_col"] [["v"]]))])
     none none none (some (LookupTable.mk ["key_col"] [["v"]]))
     "db/units_tables" "other_folder" "key_col" "v"
     ("db/units_tables/data", 0, 0) (by decide)⟩

/-- Claim C8: when the registry holds no Definition for the declared
`(table, version)` pair, the operation fails with the dedicated
schema/version error — distinct from a generic decode/format error — and
the open container is left untouched; likewise the table decoder reports
the dedicated `missingDefinition` error for an unregistered stamped
version instead of guessing. -/
theorem C8_missing_definition_is_schema_error :
    (∀ (s : Schema) (pack : Pack) (path table : String) (version : Nat),
      definitionByNameAndVersion s table version = none →
      newPackedFileDB (some s) pack path table version
        = (.errorNoDefinition table version, pack)) ∧
    (∀ (defs : Nat → Option Definition) (v : Nat) (r : List Byte),
      v < 2 ^ 32 → defs v = none →
      decodeTable defs (tableMarker ++ (leBytes 4 v ++ r))
        = .error (.missingDefinition v) ∧
      DecodeError.missingDefinition v ≠ DecodeError.formatError) := by
  constructor
  · intro s pack path table version h
    simp [newPackedFileDB, h]
  · intro defs v r hv hd
    exact ⟨decodeTable_missingDefinition defs v r hv hd, by simp⟩

/-- Witness for C8: a table declaring version 3 fails with the schema error
when only versions 1 and 2 are registered, leaving the container empty. -/
theorem C8_witness :
    definitionByNameAndVersion
        (Schema.mk [⟨"units", 1, []⟩, ⟨"units", 2, []⟩]) "units" 3 = none ∧
    newPackedFileDB (some (Schema.mk [⟨"units", 1, []⟩, ⟨"units", 2, []⟩]))
        [] "db/units_tables/new" "units" 3
      = (.errorNoDefinition "units" 3, []) ∧
    decodeTable (fun n => if n = 1 ∨ n = 2 then some [] else none)
        (tableMarker ++ (leBytes 4 3 ++ []))
      = .error (.missingDefinition 3) :=
  ⟨by rfl,
   C8_missing_definition_is_schema_error.1
     (Schema.mk [⟨"units", 1, []⟩, ⟨"units", 2, []⟩]) []
     "db/units_tables/new" "units" 3 (by rfl),
   (C8_missing_definition_is_schema_error.2
     (fun n => if n = 1 ∨ n = 2 then some [] else none) 3 []
     (by norm_num) (by rfl)).1⟩

/-- Claim C1: for the modelled table-like codec, re-encoding any
successfully decoded payload reproduces the raw bytes exactly — for every
Definition shape (so for every supported field layout, nested sub-tables
included) and every valid input, with undecoded trailing bytes preserved
as the opaque tail. -/
theorem C1_encode_decode_round_trip (defs : Nat → Option Definition)
    (bs : List Byte) (t : DecodedTable) (h : decodeTable defs bs = .ok t) :
    encodeTable t = bs :=
  decodeTable_encode defs bs t h

/-- Witness for C1: a one-row boolean table with a one-byte opaque tail
decodes and re-encodes to the original bytes. -/
theorem C1_witness :
    decodeTable (fun v => if v = 1 then some [FieldType.boolean] else none)
        (tableMarker ++ (leBytes 4 1 ++ (leBytes 4 1 ++ [1, 9])))
      = .ok ⟨1, [[FieldValue.boolean true]], [9]⟩ ∧
    encodeTable ⟨1, [[FieldValue.boolean true]], [9]⟩
      = tableMarker ++ (leBytes 4 1 ++ (leBytes 4 1 ++ [1, 9])) := by
  have hfield : decodeField FieldType.boolean [1, 9]
      = some (FieldValue.boolean true, [9]) := by
    simp only [decodeField]
    rfl
  have hrows : decodeRows [FieldType.boolean] 1 [1, 9]
      = some ([[FieldValue.boolean true]], [9]) := by
    simp only [decodeRows, decodeRow, hfield]
    rfl
  have hdec : decodeTable
      (fun v => if v = 1 then some [FieldType.boolean] else none)
      (tableMarker ++ (leBytes 4 1 ++ (leBytes 4 1 ++ [1, 9])))
      = .ok ⟨1, [[FieldValue.boolean true]], [9]⟩ := by
    simp only [decodeTable, expectBytes_append]
    rw [readUnsigned_leBytes 4 1 _ (by norm_num)]
    simp only [if_pos rfl]
    rw [readUnsigned_leBytes 4 1 _ (by norm_num)]
    simp only [if_true]
    rw [hrows]
  exact ⟨hdec, C1_encode_decode_round_trip _ _ _ hdec⟩

end RPFM
